import Mathlib

/-!
Verification of the statsdproxy core against its specification.

Bytes are modelled as natural numbers (the values of `u8`), byte strings as
`List Nat`.  Wall-clock timestamps are natural numbers counting whole seconds
since the UNIX epoch.  Rust `f64` metric values are modelled as exact
rationals.  States of the stateful middlewares are explicit structures and
each Rust method becomes a pure function from a state (and the current time)
to a new state together with the list of datagrams sent downstream.
-/

namespace Statsdproxy

/-- Byte constants used by the dogstatsd wire format. -/
def PIPE : Nat := 124
def HASH : Nat := 35
def COLON : Nat := 58
def COMMA : Nat := 44
def STAR : Nat := 42
def NEWLINE : Nat := 10
def LETTER_C : Nat := 99
def LETTER_G : Nat := 103

/-- First position where the window `"|#"` occurs, mirroring
`raw.windows(2).position(|x| x == [b'|', b'#'])` in `Metric::new`. -/
def findPipeHash : List Nat → Option Nat
  | [] => none
  | [_] => none
  | a :: b :: rest =>
    if a = 124 ∧ b = 35 then some 0
    else (findPipeHash (b :: rest)).map (· + 1)

/-- First position of the byte `'|'`, mirroring
`iter().position(|&x| x == b'|')` on a byte slice. -/
def findPipe : List Nat → Option Nat
  | [] => none
  | b :: rest => if b = 124 then some 0 else (findPipe rest).map (· + 1)

/-- Split a byte string at the first occurrence of the byte `t`:
`some (pre, post)` with `l = pre ++ t :: post` and `t ∉ pre`, or `none` when
`t` does not occur.  This is the semantics of Rust `splitn(2, ..)`. -/
def splitAtFirst (t : Nat) : List Nat → Option (List Nat × List Nat)
  | [] => none
  | b :: rest =>
    if b = t then some ([], rest)
    else (splitAtFirst t rest).map (fun pr => (b :: pr.1, pr.2))

/-- The metric value object of `src/types.rs`: the raw on-wire bytes plus the
optional half-open range of the tag segment, computed at construction. -/
structure Metric where
  raw : List Nat
  tags_pos : Option (Nat × Nat)
deriving DecidableEq, Repr

/-- `Metric::new` from `src/types.rs`: scan for the first `"|#"`; the tag
segment then runs up to the next `'|'` or the end of the buffer. -/
def Metric.new (raw : List Nat) : Metric :=
  { raw := raw
    tags_pos := (findPipeHash raw).map (fun i =>
      (i + 2,
       match findPipe (raw.drop (i + 2)) with
       | some x => x + i + 2
       | none => raw.length)) }

/-- `Metric::name`: the bytes before the first `':'`
(`splitn(2, b':').next()`); the whole buffer when there is no `':'`. -/
def Metric.name (m : Metric) : List Nat :=
  match splitAtFirst 58 m.raw with
  | some pr => pr.1
  | none => m.raw

/-- `Metric::tags`: the slice `raw[i..j]` when `tags_pos = some (i, j)`. -/
def Metric.tags (m : Metric) : Option (List Nat) :=
  m.tags_pos.map (fun pr => (m.raw.drop pr.1).take (pr.2 - pr.1))

/-- `Metric::set_tags` from `src/types.rs`: empty input drains the whole
`"|#…"` segment; otherwise splice into the existing segment or append a new
`"|#"` segment at the end of the buffer. -/
def Metric.set_tags (m : Metric) (tags : List Nat) : Metric :=
  if tags = [] then
    match m.tags_pos with
    | some pr => { raw := m.raw.take (pr.1 - 2) ++ m.raw.drop pr.2, tags_pos := none }
    | none => m
  else
    match m.tags_pos with
    | some pr =>
      { raw := m.raw.take pr.1 ++ tags ++ m.raw.drop pr.2
        tags_pos := some (pr.1, pr.1 + tags.length) }
    | none =>
      { raw := m.raw ++ [124, 35] ++ tags
        tags_pos := some (m.raw.length + 2, m.raw.length + 2 + tags.length) }

/-- Well-formedness of the lazily computed `tags_pos` index: the range is
ordered, lies inside the buffer and leaves room for the leading `"|#"`.
Every metric built by `Metric.new` satisfies this and `set_tags` preserves
it. -/
def metricWF (m : Metric) : Bool :=
  match m.tags_pos with
  | none => true
  | some pr => decide (2 ≤ pr.1 ∧ pr.1 ≤ pr.2 ∧ pr.2 ≤ m.raw.length)

/-- Stated from the specification text for claim C5: the tag range is the
bytes immediately after the first `"|#"` up to the next `'|'` or the end of
the buffer, and absent when no `"|#"` occurs. -/
def tagsSpec : List Nat → Option (List Nat)
  | [] => none
  | [_] => none
  | a :: b :: rest =>
    if a = 124 ∧ b = 35 then some (rest.takeWhile (fun x => ¬ x = 124))
    else tagsSpec (b :: rest)

/-- Comma-splitting of a tag segment, mirroring `MetricTagIterator`: each
`next()` takes the bytes up to the first `','` and continues after it; the
final segment (possibly empty) is always yielded. -/
def splitCommaAux : List Nat → List Nat → List (List Nat)
  | [], acc => [acc]
  | b :: rest, acc =>
    if b = 44 then acc :: splitCommaAux rest []
    else splitCommaAux rest (acc ++ [b])

/-- The list of comma-separated tag segments of a tag byte string. -/
def splitComma (bs : List Nat) : List (List Nat) :=
  splitCommaAux bs []

/-- The tag segments an iteration of `tags_iter()` yields: none when the
metric has no tag segment, otherwise the comma-split of `tags()`. -/
def tagsList (m : Metric) : List (List Nat) :=
  match m.tags with
  | some t => splitComma t
  | none => []

/-- Joining tag segments with `','` separators. -/
def joinComma : List (List Nat) → List Nat
  | [] => []
  | [x] => x
  | x :: y :: rest => x ++ 44 :: joinComma (y :: rest)

/-- Modelled from the spec: `set_tags_from_iter` (used by
TagCardinalityLimit but absent from `src/types.rs`) is equivalent to
concatenating the tag segments with `','` separators and calling
`set_tags`. -/
def Metric.set_tags_from_iter (m : Metric) (segs : List (List Nat)) : Metric :=
  m.set_tags (joinComma segs)

/-- `MetricTag::name`: the bytes before the first `':'` of a tag segment,
absent when the segment has no `':'`. -/
def tagSegName (seg : List Nat) : Option (List Nat) :=
  (splitAtFirst 58 seg).map (fun pr => pr.1)

/-- `MetricTag::value`: the bytes after the first `':'` of a tag segment,
absent when the segment has no `':'`. -/
def tagSegValue (seg : List Nat) : Option (List Nat) :=
  (splitAtFirst 58 seg).map (fun pr => pr.2)

/-! ### AggregateMetrics (src/middleware/aggregate.rs) -/

/-- Modelled from the spec: `value()` (absent from the snapshot of
`src/types.rs`) yields the bytes between the first `':'` and the first `'|'`
after it, or up to the end of the buffer.  This function additionally
returns the prefix through the `':'` and the suffix from the terminating
`'|'`, mirroring the `value_start`/`value_end` byte offsets that
`insert_metric` recovers by pointer arithmetic: the parts satisfy
`raw = A ++ V ++ B` with `value_start = A.length`. -/
def valueParts (raw : List Nat) : Option (List Nat × List Nat × List Nat) :=
  match splitAtFirst 58 raw with
  | none => none
  | some pr =>
    match splitAtFirst 124 pr.2 with
    | some vq => some (pr.1 ++ [58], vq.1, 124 :: vq.2)
    | none => some (pr.1 ++ [58], pr.2, [])

/-- Modelled from the spec: `ty()` (absent from the snapshot of
`src/types.rs`) yields the bytes between the first `'|'` and the next `'|'`
or the end of the buffer, absent when no `'|'` occurs. -/
def tyBytes (raw : List Nat) : Option (List Nat) :=
  (splitAtFirst 124 raw).map (fun pr =>
    match splitAtFirst 124 pr.2 with
    | some tq => tq.1
    | none => pr.2)

/-- The numeric value of a single decimal digit byte. -/
def digitVal (b : Nat) : Option Nat :=
  if 48 ≤ b ∧ b ≤ 57 then some (b - 48) else none

/-- Accumulating decimal evaluation of a run of digit bytes; fails on any
non-digit byte. -/
def parseNatDigitsAux : List Nat → Nat → Option Nat
  | [], acc => some acc
  | b :: rest, acc =>
    match digitVal b with
    | some d => parseNatDigitsAux rest (acc * 10 + d)
    | none => none

/-- Modelled from the spec: the composition of `str::from_utf8` and
`str::parse::<f64>` on the value bytes, for an unsigned decimal literal
`digits[.digits]` with at least one digit.  The result is the exact
rational value; binary floating point rounding and the exotic forms Rust
additionally accepts (exponents, `inf`, `NaN`) are outside the model.
Any byte that is not ASCII digit or dot makes the parse fail, which in
particular subsumes UTF-8 validation failure. -/
def parseUnsigned (bs : List Nat) : Option ℚ :=
  let ip := bs.takeWhile (fun b => ¬ b = 46)
  match bs.drop ip.length with
  | [] =>
    if ip = [] then none
    else (parseNatDigitsAux ip 0).map (fun n => (n : ℚ))
  | _ :: frac =>
    if ip = [] ∧ frac = [] then none
    else
      match parseNatDigitsAux ip 0, parseNatDigitsAux frac 0 with
      | some n, some f =>
        some ((n : ℚ) + (f : ℚ) / (10 : ℚ) ^ frac.length)
      | _, _ => none

/-- Modelled from the spec: signed decimal parse of the metric value bytes
(an optional leading `'-'` or `'+'` followed by an unsigned literal). -/
def parseNum : List Nat → Option ℚ
  | 45 :: rest => (parseUnsigned rest).map (fun q => -q)
  | 43 :: rest => parseUnsigned rest
  | bs => parseUnsigned bs

/-- The aggregation bucket key: the raw metric bytes with the value range
removed, plus the byte offset at which the value is re-inserted. -/
structure BucketKey where
  metric_bytes : List Nat
  insert_value_at : Nat
deriving DecidableEq, Repr

/-- The aggregation bucket value, tagged by metric type. -/
inductive BucketValue where
  | Counter : ℚ → BucketValue
  | Gauge : ℚ → BucketValue
deriving DecidableEq, Repr

/-- `BucketValue::merge` with the stored value first: counters add, gauges
overwrite; `none` models the panic on a Counter/Gauge mismatch. -/
def bvMerge : BucketValue → BucketValue → Option BucketValue
  | BucketValue.Gauge _, BucketValue.Gauge b => some (BucketValue.Gauge b)
  | BucketValue.Counter a, BucketValue.Counter b => some (BucketValue.Counter (a + b))
  | _, _ => none

/-- The kind tag of a bucket value. -/
def bvIsCounter : BucketValue → Bool
  | BucketValue.Counter _ => true
  | BucketValue.Gauge _ => false

/-- The part of `AggregateMetricsConfig` that `insert_metric` reads. -/
structure AggConfig where
  aggregate_counters : Bool
  aggregate_gauges : Bool
deriving DecidableEq, Repr

/-- Result of the fallible parsing half of `insert_metric`. -/
inductive InsertResult where
  | ok : BucketKey → BucketValue → InsertResult
  | err : String → InsertResult
deriving DecidableEq, Repr

/-- The parsing half of `AggregateMetrics::insert_metric`: extract the value
and type bytes, build the bucket value according to the enabled metric
types, and assemble the bucket key from the bytes around the value. -/
def insertParse (cfg : AggConfig) (raw : List Nat) : InsertResult :=
  match valueParts raw with
  | none => InsertResult.err "failed to parse metric value as utf8"
  | some (A, V, B) =>
    match tyBytes raw with
    | none => InsertResult.err "failed to parse metric type"
    | some t =>
      if t = [99] ∧ cfg.aggregate_counters then
        match parseNum V with
        | some v => InsertResult.ok ⟨A ++ B, A.length⟩ (BucketValue.Counter v)
        | none => InsertResult.err "failed to parse counter value"
      else if t = [103] ∧ cfg.aggregate_gauges then
        match parseNum V with
        | some v => InsertResult.ok ⟨A ++ B, A.length⟩ (BucketValue.Gauge v)
        | none => InsertResult.err "failed to parse gauge value"
      else InsertResult.err "unsupported metric type"

/-- The in-memory bucket map (`HashMap<BucketKey, BucketValue>`). -/
abbrev AggMap : Type := List (BucketKey × BucketValue)

/-- Key lookup in the bucket map. -/
def mapLookup (k : BucketKey) : AggMap → Option BucketValue
  | [] => none
  | e :: rest => if e.1 = k then some e.2 else mapLookup k rest

/-- Replacement of the value stored under a key, mirroring the in-place
update of `Entry::and_modify`. -/
def mapReplace (k : BucketKey) (v : BucketValue) : AggMap → AggMap
  | [] => []
  | e :: rest => if e.1 = k then (k, v) :: rest else e :: mapReplace k v rest

/-- `AggregateMetrics::submit`: merge parsable enabled metrics into the
bucket map, forward everything else unchanged.  The result is the new map
and the list of metrics forwarded downstream; `none` models the panic
inside `BucketValue::merge`. -/
def aggSubmit (cfg : AggConfig) (map : AggMap) (raw : List Nat) :
    Option (AggMap × List (List Nat)) :=
  match insertParse cfg raw with
  | InsertResult.err _ => some (map, [raw])
  | InsertResult.ok k v =>
    match mapLookup k map with
    | some old => (bvMerge old v).map (fun merged => (mapReplace k merged map, []))
    | none => some ((k, v) :: map, [])

/-- One submit step on an optional map state (`none` once a panic
happened). -/
def aggStep (cfg : AggConfig) (st : Option AggMap) (raw : List Nat) : Option AggMap :=
  st.bind (fun map => (aggSubmit cfg map raw).map Prod.fst)

/-- A whole sequence of submits starting from the map `m0`. -/
def aggRun (cfg : AggConfig) (m0 : AggMap) (ms : List (List Nat)) : Option AggMap :=
  ms.foldl (aggStep cfg) (some m0)

/-! ### CardinalityLimit (src/middleware/cardinality_limit.rs) -/

/-- One quota of the whole-metric cardinality limiter.  `usage` models the
`BTreeMap<u64, BTreeSet<u32>>` of granule-start timestamps to hash sets as
an association list kept in strictly ascending key order, with each set a
duplicate-free list. -/
structure Quota where
  window : Nat
  limit : Nat
  granularity : Nat
  usage : List (Nat × List Nat)
deriving DecidableEq, Repr

/-- The sortedness invariant of the `BTreeMap` model: keys strictly
ascending. -/
def UsageSorted (u : List (Nat × List Nat)) : Prop :=
  List.Pairwise (fun a b => a.1 < b.1) u

/-- The granularity derivation of `From<LimitConfig> for Quota`. -/
def granularityFor (window : Nat) : Nat :=
  if window ≤ 300 then 1 else if window ≤ 1800 then 60 else 3600

/-- `Quota::from(LimitConfig)`: derived granularity and empty usage. -/
def quotaFromConfig (window limit : Nat) : Quota :=
  ⟨window, limit, granularityFor window, []⟩

/-- The `while let Some(entry) = first_entry` loop of `remove_old_keys`: on
the sorted association list it pops leading entries with key below the
window start. -/
def removeOldLoop (ws : Nat) : List (Nat × List Nat) → List (Nat × List Nat)
  | [] => []
  | e :: rest => if e.1 < ws then removeOldLoop ws rest else e :: rest

/-- `Quota::remove_old_keys`. -/
def Quota.remove_old_keys (q : Quota) (now : Nat) : Quota :=
  { q with usage := removeOldLoop (now - q.window) q.usage }

/-- Exact key lookup (`BTreeMap::get`). -/
def usageGet (t : Nat) : List (Nat × List Nat) → Option (List Nat)
  | [] => none
  | e :: rest => if e.1 = t then some e.2 else usageGet t rest

/-- `Quota::does_metric_fit`: look up the granule at exactly
`now - window`; accept when it is absent, below the limit, or already
contains the hash. -/
def Quota.does_metric_fit (q : Quota) (now hash : Nat) : Bool :=
  match usageGet (now - q.window) q.usage with
  | some s => decide (s.length < q.limit) || decide (hash ∈ s)
  | none => true

/-- `usage.entry(t).or_default().insert(hash)` on the sorted association
list model. -/
def usageInsert (t hash : Nat) : List (Nat × List Nat) → List (Nat × List Nat)
  | [] => [(t, [hash])]
  | e :: rest =>
    if t < e.1 then (t, [hash]) :: e :: rest
    else if t = e.1 then (e.1, e.2.insert hash) :: rest
    else e :: usageInsert t hash rest

/-- The `while current_granule < now` loop of `insert_metric`.  The Rust
loop steps by `granularity`, which the config derivation makes 1, 60 or
3600, so it runs at most `window` times; the structural fuel `window + 1`
reproduces it exactly for every positive granularity. -/
def insertLoop (g now hash : Nat) : Nat → Nat → List (Nat × List Nat) → List (Nat × List Nat)
  | 0, _, u => u
  | fuel + 1, current, u =>
    if current < now then insertLoop g now hash fuel (current + g) (usageInsert current hash u)
    else u

/-- `Quota::insert_metric`: write the hash into every granule from
`now - window` to `now`, stepped by the granularity. -/
def Quota.insert_metric (q : Quota) (now hash : Nat) : Quota :=
  { q with usage := insertLoop q.granularity now hash (q.window + 1) (now - q.window) q.usage }

/-- A hash is recorded somewhere in a quota. -/
def hashMem (q : Quota) (hash : Nat) : Prop :=
  ∃ e, e ∈ q.usage ∧ hash ∈ e.2

/-- The quota loop of `CardinalityLimit::submit`: evict old granules from
each quota in turn and stop at the first quota the metric does not fit
(quotas after it are left untouched, as the Rust `for` loop returns
early).  The boolean is `true` when every quota admitted the hash. -/
def clCheck (now hash : Nat) : List Quota → List Quota × Bool
  | [] => ([], true)
  | q :: qs =>
    let q2 := q.remove_old_keys now
    if q2.does_metric_fit now hash then
      let r := clCheck now hash qs
      (q2 :: r.1, r.2)
    else (q2 :: qs, false)

/-- `CardinalityLimit::submit`, with the downstream call made explicit:
`downstreamOk = false` models `next.submit` returning `Overloaded`.  The
result is the new quota list, whether the metric was forwarded downstream,
and whether submit itself returned `Ok` (an admission drop still returns
`Ok`, while a downstream `Overloaded` propagates as `Err` via `?`). -/
def clSubmit (quotas : List Quota) (now hash : Nat) (downstreamOk : Bool) :
    List Quota × Bool × Bool :=
  let r := clCheck now hash quotas
  if r.2 then
    if downstreamOk then (r.1.map (fun q => q.insert_metric now hash), true, true)
    else (r.1, true, false)
  else (r.1, false, true)

/-! ### Upstream (src/middleware/mod.rs) -/

/-- The outbound buffer size of the terminal UDP sink. -/
def BUFSIZE : Nat := 8192

/-- The `Upstream` state: the used prefix of the outbound buffer and the
time of the last send, in whole seconds (`UNIX_EPOCH` is 0). -/
structure UpstreamState where
  buf : List Nat
  lastSentAt : Nat
deriving DecidableEq, Repr

/-- `Upstream::flush`: send the used buffer prefix as one datagram when
non-empty, then unconditionally stamp `last_sent_at = now`. -/
def upFlush (u : UpstreamState) (now : Nat) : UpstreamState × List (List Nat) :=
  (⟨[], now⟩, if u.buf = [] then [] else [u.buf])

/-- `Upstream::submit`: flush when the metric plus separator does not fit
in the remaining space; a metric larger than the whole buffer is sent as
its own datagram; otherwise it is appended, `'\n'`-separated from any
previous content. -/
def upSubmit (u : UpstreamState) (now : Nat) (raw : List Nat) :
    UpstreamState × List (List Nat) :=
  let p := if raw.length + 1 > BUFSIZE - u.buf.length then upFlush u now else (u, [])
  if raw.length > BUFSIZE then (p.1, p.2 ++ [raw])
  else
    ({ p.1 with buf := (if p.1.buf.length > 0 then p.1.buf ++ [10] else p.1.buf) ++ raw },
     p.2)

/-- `Upstream::timed_flush` (driven by `poll`): flush when more than one
second passed since the last send; `duration_since` failing because the
clock went backwards also flushes (the `map_or(true, ..)` default). -/
def upPoll (u : UpstreamState) (now : Nat) : UpstreamState × List (List Nat) :=
  if now < u.lastSentAt ∨ 1 < now - u.lastSentAt then upFlush u now else (u, [])

/-- `Drop for Upstream`: the destructor flushes. -/
def upDrop (u : UpstreamState) (now : Nat) : UpstreamState × List (List Nat) :=
  upFlush u now

/-- The operations the middleware contract drives on an `Upstream`. -/
inductive UpOp where
  | submit : Nat → List Nat → UpOp
  | poll : Nat → UpOp
  | flush : Nat → UpOp
deriving DecidableEq, Repr

/-- One operation applied to an `Upstream` state. -/
def upStep (u : UpstreamState) : UpOp → UpstreamState × List (List Nat)
  | UpOp.submit now raw => upSubmit u now raw
  | UpOp.poll now => upPoll u now
  | UpOp.flush now => upFlush u now

/-- A freshly constructed `Upstream`: empty buffer, `last_sent_at`
initialised to `UNIX_EPOCH`. -/
def upFresh : UpstreamState := ⟨[], 0⟩

/-- The state after a sequence of operations on a fresh `Upstream`. -/
def upRun (ops : List UpOp) : UpstreamState :=
  ops.foldl (fun u op => (upStep u op).1) upFresh

/-! ### TagCardinalityLimit (src/middleware/tag_cardinality_limit.rs) -/

/-- One per-tag-key quota: the configured tag key (or `"*"`), the limit,
and the set of observed values modelled as a duplicate-free list. -/
structure TagQuota where
  tag : List Nat
  limit : Nat
  values_seen : List (List Nat)
deriving DecidableEq, Repr

/-- The filter predicate of `TagCardinalityLimit::submit`: a tag without a
value is always kept; a tag with a value is dropped when some quota matches
its key (exactly or by `"*"`), is at or over its limit, and has not seen
this value. -/
def keepTag (quotas : List TagQuota) (seg : List Nat) : Bool :=
  match tagSegValue seg with
  | none => true
  | some v =>
    ! quotas.any (fun q =>
        decide (q.tag = [42] ∨ some q.tag = tagSegName seg) &&
        (decide (q.limit ≤ q.values_seen.length) && ! decide (v ∈ q.values_seen)))

/-- The rewritten metric `TagCardinalityLimit::submit` forwards: the
original tag segments filtered through the quotas, written back via
`set_tags_from_iter`. -/
def tcForward (quotas : List TagQuota) (m : Metric) : Metric :=
  m.set_tags_from_iter ((tagsList m).filter (keepTag quotas))

/-- The post-forward bookkeeping of `TagCardinalityLimit::submit`: each
kept tag value is inserted into every matching quota. -/
def tcUpdateQuotas (quotas : List TagQuota) (m2 : Metric) : List TagQuota :=
  (tagsList m2).foldl
    (fun qs seg => qs.map (fun q =>
      if decide (q.tag = [42] ∨ some q.tag = tagSegName seg) then
        match tagSegValue seg with
        | some v => { q with values_seen := q.values_seen.insert v }
        | none => q
      else q))
    quotas

/-- `TagCardinalityLimit::submit`: forward the rewritten metric, then
update the quotas from its kept tags. -/
def tcSubmit (quotas : List TagQuota) (m : Metric) : Metric × List TagQuota :=
  (tcForward quotas m, tcUpdateQuotas quotas (tcForward quotas m))

/-! ### Specification-level properties used by the claim theorems -/

/-- The amended C1 property of a quota after `remove_old_keys now`:
eviction removed exactly the granules before `now - window`; a granule
found at exactly `now - window` is the oldest surviving one; and
`does_metric_fit` accepts iff there is no granule at exactly `now - window`
or that granule is below the limit or already holds the hash. -/
def cardFitSpec (q : Quota) (now hash : Nat) : Prop :=
  (∀ p ∈ (q.remove_old_keys now).usage, now - q.window ≤ p.1) ∧
  (∀ p ∈ q.usage, now - q.window ≤ p.1 → p ∈ (q.remove_old_keys now).usage) ∧
  (∀ s, usageGet (now - q.window) (q.remove_old_keys now).usage = some s →
      (q.remove_old_keys now).usage.head? = some (now - q.window, s)) ∧
  ((q.remove_old_keys now).does_metric_fit now hash = true ↔
      (usageGet (now - q.window) (q.remove_old_keys now).usage = none ∨
       ∃ s, usageGet (now - q.window) (q.remove_old_keys now).usage = some s ∧
         (s.length < q.limit ∨ hash ∈ s)))

/-- No hash is recorded in `q2` that was not already recorded in `q`. -/
def quotaNoNewHash (q q2 : Quota) : Prop :=
  ∀ x, hashMem q2 x → hashMem q x

/-- The amended C8 property of `CardinalityLimit::submit`: on admission
failure the metric is not forwarded, submit returns `Ok`, and no hash is
inserted anywhere; on downstream overload the metric was forwarded, the
error propagates, and no hash is inserted (although expired granules have
been evicted); on success the hash is inserted into every quota whose
window is positive and within `now`. -/
def clSubmitSpec (quotas : List Quota) (now hash : Nat) (dok : Bool) : Prop :=
  ((clCheck now hash quotas).2 = false →
      (clSubmit quotas now hash dok).2.1 = false ∧
      (clSubmit quotas now hash dok).2.2 = true ∧
      List.Forall₂ quotaNoNewHash quotas (clSubmit quotas now hash dok).1) ∧
  ((clCheck now hash quotas).2 = true → dok = false →
      (clSubmit quotas now hash dok).2.1 = true ∧
      (clSubmit quotas now hash dok).2.2 = false ∧
      List.Forall₂ quotaNoNewHash quotas (clSubmit quotas now hash dok).1) ∧
  ((clCheck now hash quotas).2 = true → dok = true →
      (clSubmit quotas now hash dok).2.1 = true ∧
      (clSubmit quotas now hash dok).2.2 = true ∧
      List.Forall₂ (fun q q2 => 0 < q.window → q.window ≤ now → hashMem q2 hash)
        quotas (clSubmit quotas now hash dok).1)

/-- The C3 property: starting from a map without the key `k`, a run of
submits that all parse to key `k` stores the sum of the parsed values for
counters, and the last parsed value for gauges. -/
def aggSameKeySpec (cfg : AggConfig) (k : BucketKey) (m0 : AggMap) : Prop :=
  (∀ (ms : List (List Nat)) (vs : List ℚ), ms.map (insertParse cfg) =
      vs.map (fun v => InsertResult.ok k (BucketValue.Counter v)) →
    ∃ mf, aggRun cfg m0 ms = some mf ∧
      mapLookup k mf = (if vs = [] then none else some (BucketValue.Counter vs.sum))) ∧
  (∀ (ms : List (List Nat)) (vs : List ℚ), ms.map (insertParse cfg) =
      vs.map (fun v => InsertResult.ok k (BucketValue.Gauge v)) →
    ∃ mf, aggRun cfg m0 ms = some mf ∧
      mapLookup k mf = (vs.getLast?).map BucketValue.Gauge)

/-- The type segment of a raw metric, recomputed from the bucket-key parts
only (the prefix through the `':'` and the suffix from the value's
terminating `'|'`): `none` marks the configurations in which the type
segment would overlap the parsed value, which cannot happen for a metric
the aggregator admitted. -/
def tyKey (A B : List Nat) : Option (List Nat) :=
  match splitAtFirst 124 A with
  | some pr =>
    match splitAtFirst 124 pr.2 with
    | some tq => some tq.1
    | none => none
  | none =>
    match B with
    | [] => none
    | _ :: B2 =>
      match splitAtFirst 124 B2 with
      | some tq => some tq.1
      | none => some B2

/-- The C2 property of one `Upstream` state: submit flushes (sending the
old buffer when non-empty and stamping `last_sent_at`) exactly when the
metric plus separator byte does not fit; an oversize metric goes out as its
own datagram and is never buffered; poll flushes exactly when more than one
second passed since the last send; the destructor flushes any non-empty
buffer. -/
def upstreamOpsSpec (u : UpstreamState) (now : Nat) (raw : List Nat) : Prop :=
  (upSubmit u now raw).2 =
      (if BUFSIZE < u.buf.length + 1 + raw.length ∧ u.buf ≠ [] then [u.buf] else []) ++
      (if BUFSIZE < raw.length then [raw] else []) ∧
  (upSubmit u now raw).1.lastSentAt =
      (if BUFSIZE < u.buf.length + 1 + raw.length then now else u.lastSentAt) ∧
  (upSubmit u now raw).1.buf =
      (if BUFSIZE < raw.length then []
       else (if BUFSIZE < u.buf.length + 1 + raw.length then []
             else if u.buf = [] then [] else u.buf ++ [10]) ++ raw) ∧
  (upPoll u now).2 = (if 1 < now - u.lastSentAt ∧ u.buf ≠ [] then [u.buf] else []) ∧
  (upPoll u now).1.lastSentAt =
      (if 1 < now - u.lastSentAt then now else u.lastSentAt) ∧
  (upDrop u now).2 = (if u.buf = [] then [] else [u.buf])

/-! ## Helper lemmas about the byte-string splitters -/

theorem splitAtFirst_eq_none {t : Nat} {l : List Nat} :
    splitAtFirst t l = none ↔ t ∉ l := by
  induction l with
  | nil => simp [splitAtFirst]
  | cons b rest ih =>
    by_cases hb : b = t
    · subst hb
      simp [splitAtFirst]
    · simp [splitAtFirst, hb, Option.map_eq_none', ih, Ne.symm hb]

theorem splitAtFirst_decomp {t : Nat} {l pre post : List Nat}
    (h : splitAtFirst t l = some (pre, post)) : l = pre ++ t :: post ∧ t ∉ pre := by
  induction l generalizing pre with
  | nil => simp [splitAtFirst] at h
  | cons b rest ih =>
    simp only [splitAtFirst] at h
    by_cases hb : b = t
    · rw [if_pos hb] at h
      injection h with h2
      injection h2 with hpre hpost
      subst hpre
      subst hpost
      simp [hb]
    · rw [if_neg hb] at h
      rcases hsp : splitAtFirst t rest with _ | pr
      · rw [hsp] at h
        simp at h
      · rw [hsp] at h
        simp only [Option.map_some'] at h
        injection h with h2
        injection h2 with hpre hpost
        subst hpre
        subst hpost
        obtain ⟨hdec, hmem⟩ := ih (show splitAtFirst t rest = some (pr.1, pr.2) from by rw [hsp])
        constructor
        · simp [hdec]
        · simp [hmem, Ne.symm hb]

theorem splitAtFirst_of_decomp (t : Nat) {pre : List Nat} (post : List Nat)
    (h : t ∉ pre) : splitAtFirst t (pre ++ t :: post) = some (pre, post) := by
  induction pre with
  | nil => simp [splitAtFirst]
  | cons b rest ih =>
    have hb : b ≠ t := by
      intro hbt
      exact h (by simp [hbt])
    have hrest : t ∉ rest := fun hm => h (by simp [hm])
    simp [splitAtFirst, hb, ih hrest]

theorem splitAtFirst_append_some {t : Nat} {l pre post : List Nat} (X : List Nat)
    (h : splitAtFirst t l = some (pre, post)) :
    splitAtFirst t (l ++ X) = some (pre, post ++ X) := by
  obtain ⟨rfl, hmem⟩ := splitAtFirst_decomp h
  have := splitAtFirst_of_decomp t (post ++ X) hmem
  simpa using this

theorem splitAtFirst_append_none {t : Nat} {l : List Nat} (X : List Nat)
    (h : splitAtFirst t l = none) :
    splitAtFirst t (l ++ X) = (splitAtFirst t X).map (fun pr => (l ++ pr.1, pr.2)) := by
  induction l with
  | nil =>
    cases hX : splitAtFirst t X with
    | none => simp [hX]
    | some pr => simp [hX]
  | cons b rest ih =>
    have hmem : t ∉ b :: rest := splitAtFirst_eq_none.mp h
    have hb : b ≠ t := by
      intro hbt
      exact hmem (by simp [hbt])
    have hrest : t ∉ rest := fun hm => hmem (by simp [hm])
    have hnone : splitAtFirst t rest = none := splitAtFirst_eq_none.mpr hrest
    rw [List.cons_append]
    simp only [splitAtFirst]
    rw [if_neg hb, ih hnone]
    cases hX : splitAtFirst t X with
    | none => simp [hX]
    | some pr => simp [hX]

/-! ## Helper lemmas about findPipe, findPipeHash and tagsSpec -/

theorem findPipe_some_take {d : List Nat} {x : Nat} (h : findPipe d = some x) :
    d.take x = d.takeWhile (fun b => ¬ b = 124) := by
  induction d generalizing x with
  | nil => simp [findPipe] at h
  | cons b rest ih =>
    simp only [findPipe] at h
    by_cases hb : b = 124
    · rw [if_pos hb] at h
      injection h with h0
      subst h0
      simp [List.takeWhile_cons, hb]
    · rw [if_neg hb] at h
      rcases hfp : findPipe rest with _ | y
      · rw [hfp] at h
        simp at h
      · rw [hfp] at h
        simp only [Option.map_some'] at h
        injection h with h0
        subst h0
        simp [List.takeWhile_cons, hb, ih hfp]

theorem findPipe_none_takeWhile {d : List Nat} (h : findPipe d = none) :
    d.takeWhile (fun b => ¬ b = 124) = d := by
  induction d with
  | nil => simp
  | cons b rest ih =>
    simp only [findPipe] at h
    by_cases hb : b = 124
    · rw [if_pos hb] at h
      simp at h
    · rw [if_neg hb] at h
      simp only [Option.map_eq_none'] at h
      rw [List.takeWhile_cons_of_pos (by simp [hb]), ih h]

theorem findPipeHash_le {B : List Nat} {i : Nat} (h : findPipeHash B = some i) :
    i + 2 ≤ B.length := by
  induction B generalizing i with
  | nil => simp [findPipeHash] at h
  | cons a rest ih =>
    match rest, h with
    | [], h => simp [findPipeHash] at h
    | b :: rest2, h =>
      by_cases hab : a = 124 ∧ b = 35
      · simp only [findPipeHash, if_pos hab, Option.some_inj] at h
        subst h
        simp [Nat.succ_le_succ, Nat.le_add_left]
      · simp only [findPipeHash, if_neg hab, Option.map_eq_some'] at h
        obtain ⟨y, hy, rfl⟩ := h
        have := ih hy
        simpa [Nat.add_comm, Nat.add_left_comm] using Nat.succ_le_succ this

theorem tagsSpec_eq_findPipeHash (B : List Nat) :
    tagsSpec B = (findPipeHash B).map (fun i => (B.drop (i + 2)).takeWhile (fun x => ¬ x = 124)) := by
  induction B with
  | nil => simp [tagsSpec, findPipeHash]
  | cons a rest ih =>
    match rest with
    | [] => simp [tagsSpec, findPipeHash]
    | b :: rest2 =>
      by_cases hab : a = 124 ∧ b = 35
      · simp [tagsSpec, findPipeHash, if_pos hab]
      · simp only [tagsSpec, findPipeHash, if_neg hab]
        rw [ih]
        cases h : findPipeHash (b :: rest2) with
        | none => simp
        | some i => simp

theorem findPipe_lt {d : List Nat} {x : Nat} (h : findPipe d = some x) :
    x < d.length := by
  induction d generalizing x with
  | nil => simp [findPipe] at h
  | cons b rest ih =>
    simp only [findPipe] at h
    by_cases hb : b = 124
    · rw [if_pos hb] at h
      injection h with h0
      subst h0
      simp
    · rw [if_neg hb] at h
      rcases hfp : findPipe rest with _ | y
      · rw [hfp] at h
        simp at h
      · rw [hfp] at h
        simp only [Option.map_some'] at h
        injection h with h0
        subst h0
        simpa using Nat.succ_lt_succ (ih hfp)

/-- Claim C5 support: the tag range of a freshly constructed metric matches
the specification formulation. -/
theorem metric_new_tags_eq_spec (B : List Nat) :
    (Metric.new B).tags = tagsSpec B := by
  rw [tagsSpec_eq_findPipeHash]
  unfold Metric.new Metric.tags
  cases h : findPipeHash B with
  | none => simp
  | some i =>
    simp only [Option.map_some']
    cases hp : findPipe (B.drop (i + 2)) with
    | none =>
      simp only [Option.some_inj]
      have hlen : (B.drop (i + 2)).length = B.length - (i + 2) := by
        simp
      rw [← hlen, List.take_length]
      exact (findPipe_none_takeWhile hp).symm
    | some x =>
      simp only [Option.some_inj]
      have : x + i + 2 - (i + 2) = x := by omega
      rw [this]
      exact findPipe_some_take hp

/-! ## Helper lemmas about Metric well-formedness and set_tags -/

theorem metricWF_new (B : List Nat) : metricWF (Metric.new B) = true := by
  unfold metricWF Metric.new
  cases h : findPipeHash B with
  | none => simp
  | some i =>
    have hle := findPipeHash_le h
    cases hp : findPipe (B.drop (i + 2)) with
    | none =>
      simp only [Option.map_some', hp]
      simp only [decide_eq_true_eq]
      omega
    | some x =>
      have hlt := findPipe_lt hp
      rw [List.length_drop] at hlt
      simp only [Option.map_some', hp]
      simp only [decide_eq_true_eq]
      omega

theorem set_tags_tags_of_ne_nil {m : Metric} {T : List Nat}
    (hwf : metricWF m = true) (hT : T ≠ []) : (m.set_tags T).tags = some T := by
  unfold Metric.set_tags
  rw [if_neg hT]
  cases hpos : m.tags_pos with
  | none =>
    simp only [Metric.tags, Option.map_some', Option.some_inj]
    have hlen : (m.raw ++ [124, 35]).length = m.raw.length + 2 := by
      simp
    rw [List.drop_left' hlen, Nat.add_sub_cancel_left, List.take_length]
  | some pr =>
    have hwf2 : 2 ≤ pr.1 ∧ pr.1 ≤ pr.2 ∧ pr.2 ≤ m.raw.length := by
      unfold metricWF at hwf
      rw [hpos] at hwf
      simpa using hwf
    simp only [Metric.tags, Option.map_some', Option.some_inj]
    have hlen : (m.raw.take pr.1).length = pr.1 := by
      rw [List.length_take]
      omega
    rw [Nat.add_sub_cancel_left, List.append_assoc (m.raw.take pr.1),
      List.drop_left' hlen, List.take_left]

theorem set_tags_tags_of_nil (m : Metric) : (m.set_tags []).tags = none := by
  unfold Metric.set_tags
  rw [if_pos rfl]
  cases hpos : m.tags_pos with
  | none =>
    simp only [Metric.tags, hpos]
    rfl
  | some pr => rfl

theorem set_tags_raw_of_nil_some {m : Metric} {pr : Nat × Nat}
    (hpos : m.tags_pos = some pr) :
    (m.set_tags []).raw = m.raw.take (pr.1 - 2) ++ m.raw.drop pr.2 := by
  unfold Metric.set_tags
  rw [if_pos rfl, hpos]

theorem set_tags_of_nil_none {m : Metric} (hpos : m.tags_pos = none) :
    m.set_tags [] = m := by
  unfold Metric.set_tags
  rw [if_pos rfl, hpos]

/-! ## Helper lemmas about comma splitting and joining -/

theorem splitCommaAux_char (l : List Nat) : ∀ acc : List Nat,
    splitCommaAux l acc =
      (match splitAtFirst 44 l with
       | some pr => (acc ++ pr.1) :: splitComma pr.2
       | none => [acc ++ l]) := by
  induction l with
  | nil => intro acc; simp [splitCommaAux, splitAtFirst]
  | cons b rest ih =>
    intro acc
    by_cases hb : b = 44
    · subst hb
      simp [splitCommaAux, splitAtFirst, splitComma]
    · simp only [splitCommaAux, if_neg hb, ih (acc ++ [b]), splitAtFirst, if_neg hb]
      cases hsp : splitAtFirst 44 rest with
      | none => simp
      | some pr => simp

theorem splitComma_char (bs : List Nat) :
    splitComma bs =
      (match splitAtFirst 44 bs with
       | some pr => pr.1 :: splitComma pr.2
       | none => [bs]) := by
  rw [splitComma, splitCommaAux_char]
  cases hsp : splitAtFirst 44 bs with
  | none => simp
  | some pr => simp

theorem splitComma_no_comma {bs : List Nat} (h : 44 ∉ bs) : splitComma bs = [bs] := by
  rw [splitComma_char, splitAtFirst_eq_none.mpr h]

theorem splitCommaAux_mem_not_comma {seg : List Nat} (l : List Nat) : ∀ acc : List Nat,
    44 ∉ acc → seg ∈ splitCommaAux l acc → 44 ∉ seg := by
  induction l with
  | nil =>
    intro acc hacc hmem
    simp only [splitCommaAux, List.mem_singleton] at hmem
    subst hmem
    exact hacc
  | cons b rest ih =>
    intro acc hacc hmem
    by_cases hb : b = 44
    · simp only [splitCommaAux, if_pos hb] at hmem
      rcases List.mem_cons.mp hmem with h1 | hmem2
      · subst h1
        exact hacc
      · exact ih [] (by simp) hmem2
    · simp only [splitCommaAux, if_neg hb] at hmem
      have hacc2 : 44 ∉ acc ++ [b] := by
        simp only [List.mem_append, List.mem_singleton]
        rintro (h1 | h2)
        · exact hacc h1
        · exact hb h2.symm
      exact ih (acc ++ [b]) hacc2 hmem

theorem splitComma_mem_not_comma {seg bs : List Nat}
    (hmem : seg ∈ splitComma bs) : 44 ∉ seg :=
  splitCommaAux_mem_not_comma bs [] (by simp) hmem

theorem splitComma_joinComma : ∀ {segs : List (List Nat)}, segs ≠ [] →
    (∀ s ∈ segs, 44 ∉ s) → splitComma (joinComma segs) = segs
  | [], hne, _ => absurd rfl hne
  | [x], _, hfree => by
    rw [joinComma, splitComma_no_comma (hfree x (by simp))]
  | x :: y :: rest, _, hfree => by
    rw [joinComma, splitComma_char,
      splitAtFirst_of_decomp 44 (joinComma (y :: rest)) (hfree x (by simp))]
    have ih := splitComma_joinComma
      (show (y :: rest : List (List Nat)) ≠ [] from by simp)
      (fun s hs => hfree s (by simp [hs]))
    simp [ih]

theorem joinComma_eq_nil : ∀ {segs : List (List Nat)},
    joinComma segs = [] ↔ segs = [] ∨ segs = [[]]
  | [] => by simp [joinComma]
  | [x] => by simp [joinComma]
  | x :: y :: rest => by simp [joinComma]

/-! ## Claim C5 -/

/-- C5: a metric constructed from bytes `B` keeps `raw = B` (so serializing
with no edits yields exactly `B`), and its `tags()` is the byte range after
the first `"|#"` up to the next `'|'` or end of buffer, `none` when no
`"|#"` occurs (the latter formulation is `tagsSpec`). -/
theorem metric_new_raw_and_tags (B : List Nat) :
    (Metric.new B).raw = B ∧ (Metric.new B).tags = tagsSpec B :=
  ⟨rfl, metric_new_tags_eq_spec B⟩

/-! ## Claim C4 -/

/-- C4: on a well-formed metric, `set_tags T` with non-empty `T` makes
`tags()` return exactly `T`; `set_tags` with empty input makes `tags()`
return `none` and excises the bytes from the leading `"|#"` through the end
of the old tag segment from the raw buffer (leaving the buffer unchanged
when there was no tag segment). -/
theorem set_tags_roundtrip (m : Metric) (T : List Nat)
    (hwf : metricWF m = true) (hT : T ≠ []) :
    (m.set_tags T).tags = some T ∧
    (m.set_tags []).tags = none ∧
    (m.set_tags []).raw =
      (match m.tags_pos with
       | some pr => m.raw.take (pr.1 - 2) ++ m.raw.drop pr.2
       | none => m.raw) := by
  refine ⟨set_tags_tags_of_ne_nil hwf hT, set_tags_tags_of_nil m, ?_⟩
  cases hpos : m.tags_pos with
  | none => rw [set_tags_of_nil_none hpos]
  | some pr => rw [set_tags_raw_of_nil_some hpos]

/-- C4 witness: the metric `"a:1|c|#x"` with new tags `"z"`. -/
theorem set_tags_roundtrip_witness :
    ((Metric.new [97, 58, 49, 124, 99, 124, 35, 120]).set_tags [122]).tags = some [122] ∧
    ((Metric.new [97, 58, 49, 124, 99, 124, 35, 120]).set_tags []).tags = none ∧
    ((Metric.new [97, 58, 49, 124, 99, 124, 35, 120]).set_tags []).raw =
      [97, 58, 49, 124, 99] :=
  set_tags_roundtrip (Metric.new [97, 58, 49, 124, 99, 124, 35, 120]) [122]
    (by decide) (by decide)

/-! ## Claim C6 -/

/-- C6 counterexample: submitting the metric `"a:1|c|#"` (whose tag list is
one empty tag, which has no value and so must always be kept per the claim)
through a TagCardinalityLimit with no quotas forwards a metric whose tag
list is empty, not the filtered original list. -/
theorem tag_cardinality_empty_segment :
    tagsList ((tcSubmit [] (Metric.new [97, 58, 49, 124, 99, 124, 35])).1) = [] ∧
    (tagsList (Metric.new [97, 58, 49, 124, 99, 124, 35])).filter (keepTag []) = [[]] ∧
    ([] : List (List Nat)) ≠ [[]] := by
  refine ⟨?_, by decide, by decide⟩
  decide

/-- C6 amended: the forwarded tag list is exactly the original tag
segments, in order, filtered by the quota predicate (which always keeps
tags without a value) — except that when the kept segments join to the
empty byte string (no segment kept, or only one empty segment), the tag
section is removed entirely and the forwarded tag list is empty. -/
theorem tag_cardinality_forward_list (quotas : List TagQuota) (m : Metric)
    (hwf : metricWF m = true) :
    tagsList ((tcSubmit quotas m).1) =
      (if joinComma ((tagsList m).filter (keepTag quotas)) = [] then []
       else (tagsList m).filter (keepTag quotas)) := by
  have hsome : ∀ (x : Metric) (t : List Nat), x.tags = some t → tagsList x = splitComma t := by
    intro x t h
    unfold tagsList
    rw [h]
  have hnone : ∀ x : Metric, x.tags = none → tagsList x = [] := by
    intro x h
    unfold tagsList
    rw [h]
  have hfwd : (tcSubmit quotas m).1 =
      m.set_tags (joinComma ((tagsList m).filter (keepTag quotas))) := rfl
  by_cases hj : joinComma ((tagsList m).filter (keepTag quotas)) = []
  · rw [if_pos hj, hfwd, hj]
    exact hnone _ (set_tags_tags_of_nil m)
  · rw [if_neg hj, hfwd]
    have htags := set_tags_tags_of_ne_nil hwf hj
    rw [hsome _ _ htags]
    have hne : (tagsList m).filter (keepTag quotas) ≠ [] := by
      intro hnil
      rw [hnil] at hj
      exact hj rfl
    refine splitComma_joinComma hne ?_
    intro s hs
    have hs2 : s ∈ tagsList m := List.mem_of_mem_filter hs
    cases htm : m.tags with
    | none =>
      rw [hnone m htm] at hs2
      simp at hs2
    | some t =>
      rw [hsome m t htm] at hs2
      exact splitComma_mem_not_comma hs2

/-- C6 amended witness: quota `{tag := "env", limit := 1, seen := {"prod"}}`
on the metric `"a:1|c|#env:dev,up"` — the valued tag `env:dev` is dropped,
the valueless tag `up` is kept. -/
theorem tag_cardinality_forward_list_witness :
    tagsList ((tcSubmit [⟨[101, 110, 118], 1, [[112, 114, 111, 100]]⟩]
        (Metric.new [97, 58, 49, 124, 99, 124, 35, 101, 110, 118, 58, 100, 101, 118,
          44, 117, 112])).1) =
      (if joinComma ((tagsList (Metric.new [97, 58, 49, 124, 99, 124, 35, 101, 110,
            118, 58, 100, 101, 118, 44, 117, 112])).filter
          (keepTag [⟨[101, 110, 118], 1, [[112, 114, 111, 100]]⟩])) = [] then []
       else (tagsList (Metric.new [97, 58, 49, 124, 99, 124, 35, 101, 110, 118, 58,
            100, 101, 118, 44, 117, 112])).filter
          (keepTag [⟨[101, 110, 118], 1, [[112, 114, 111, 100]]⟩])) :=
  tag_cardinality_forward_list [⟨[101, 110, 118], 1, [[112, 114, 111, 100]]⟩]
    (Metric.new [97, 58, 49, 124, 99, 124, 35, 101, 110, 118, 58, 100, 101, 118,
      44, 117, 112]) (by decide)

/-! ## Helper lemmas about the cardinality quota granule store -/

theorem removeOldLoop_sub {ws : Nat} : ∀ {u : List (Nat × List Nat)} {p : Nat × List Nat},
    p ∈ removeOldLoop ws u → p ∈ u := by
  intro u
  induction u with
  | nil => intro p h; exact absurd h (by simp [removeOldLoop])
  | cons e rest ih =>
    intro p h
    by_cases he : e.1 < ws
    · rw [removeOldLoop, if_pos he] at h
      exact List.mem_cons_of_mem e (ih h)
    · rw [removeOldLoop, if_neg he] at h
      exact h

theorem removeOldLoop_ge {ws : Nat} : ∀ {u : List (Nat × List Nat)}, UsageSorted u →
    ∀ p ∈ removeOldLoop ws u, ws ≤ p.1 := by
  intro u
  induction u with
  | nil => intro _ p h; exact absurd h (by simp [removeOldLoop])
  | cons e rest ih =>
    intro hs p h
    rw [UsageSorted, List.pairwise_cons] at hs
    by_cases he : e.1 < ws
    · rw [removeOldLoop, if_pos he] at h
      exact ih hs.2 p h
    · rw [removeOldLoop, if_neg he] at h
      rcases List.mem_cons.mp h with h1 | h2
      · subst h1
        omega
      · have := hs.1 p h2
        omega

theorem removeOldLoop_mem {ws : Nat} : ∀ {u : List (Nat × List Nat)} {p : Nat × List Nat},
    UsageSorted u → p ∈ u → ws ≤ p.1 → p ∈ removeOldLoop ws u := by
  intro u
  induction u with
  | nil => intro p _ h; exact absurd h (by simp)
  | cons e rest ih =>
    intro p hs hp hge
    rw [UsageSorted, List.pairwise_cons] at hs
    by_cases he : e.1 < ws
    · rw [removeOldLoop, if_pos he]
      rcases List.mem_cons.mp hp with h1 | h2
      · subst h1
        omega
      · exact ih hs.2 h2 hge
    · rw [removeOldLoop, if_neg he]
      exact hp

theorem removeOldLoop_sorted {ws : Nat} : ∀ {u : List (Nat × List Nat)},
    UsageSorted u → UsageSorted (removeOldLoop ws u) := by
  intro u
  induction u with
  | nil => intro h; exact h
  | cons e rest ih =>
    intro hs
    rw [UsageSorted, List.pairwise_cons] at hs
    by_cases he : e.1 < ws
    · rw [removeOldLoop, if_pos he]
      exact ih hs.2
    · rw [removeOldLoop, if_neg he]
      rw [UsageSorted, List.pairwise_cons]
      exact hs

theorem usageGet_none_of {ws : Nat} : ∀ {u : List (Nat × List Nat)},
    (∀ p ∈ u, p.1 ≠ ws) → usageGet ws u = none := by
  intro u
  induction u with
  | nil => intro _; rfl
  | cons e rest ih =>
    intro h
    rw [usageGet, if_neg (h e (by simp))]
    exact ih (fun p hp => h p (by simp [hp]))

theorem usageGet_head {ws : Nat} : ∀ {u : List (Nat × List Nat)} {s : List Nat},
    UsageSorted u → (∀ p ∈ u, ws ≤ p.1) → usageGet ws u = some s →
    u.head? = some (ws, s) := by
  intro u
  induction u with
  | nil => intro s _ _ h; exact absurd h (by simp [usageGet])
  | cons e rest ih =>
    intro s hs hge hget
    rw [UsageSorted, List.pairwise_cons] at hs
    by_cases he : e.1 = ws
    · rw [usageGet, if_pos he] at hget
      injection hget with h2
      subst h2
      have : e = (ws, e.2) := by
        rw [← he]
      rw [List.head?_cons, this]
    · rw [usageGet, if_neg he] at hget
      have hlt : ws < e.1 := by
        have := hge e (by simp)
        omega
      have : usageGet ws rest = none := by
        refine usageGet_none_of ?_
        intro p hp
        have := hs.1 p hp
        omega
      rw [this] at hget
      exact absurd hget (by simp)

/-! ## Claim C1 -/

/-- C1 counterexample: quota with `window = 600`, `limit = 1`,
`granularity = 60` and a single granule at timestamp 460 holding hash 1
(reachable: insert at time 1000 writes granules 400, 460, …, then
`remove_old_keys 1001` evicts 400).  At `now = 1001` nothing is evicted,
the oldest surviving granule `(460, {1})` is full and does not contain
hash 2, yet `does_metric_fit` accepts because it looks up the granule at
exactly `now - window = 401`, which does not exist. -/
theorem cardinality_oldest_granule :
    ((Quota.mk 600 1 60 [(460, [1])]).remove_old_keys 1001).does_metric_fit 1001 2 = true ∧
    ((Quota.mk 600 1 60 [(460, [1])]).remove_old_keys 1001).usage.head? = some (460, [1]) ∧
    ((Quota.mk 600 1 60 [(460, [1])]).remove_old_keys 1001).usage ≠ [] ∧
    ¬ (([1] : List Nat).length < (Quota.mk 600 1 60 [(460, [1])]).limit ∨
        2 ∈ ([1] : List Nat)) := by
  decide

/-- C1 amended: after `remove_old_keys now` evicted exactly the granules
before `now - window`, `does_metric_fit now h` accepts iff no granule
exists at timestamp exactly `now - window`, or that granule's set is below
the limit or already contains `h`; when that granule exists it is the
oldest surviving one.  (The original claim, phrased for the oldest
surviving granule whatever its timestamp, fails: see the
counterexample.) -/
theorem cardinality_does_fit (q : Quota) (now hash : Nat)
    (hs : UsageSorted q.usage) (hw : q.window ≤ now) : cardFitSpec q now hash := by
  have hru : (q.remove_old_keys now).usage = removeOldLoop (now - q.window) q.usage := rfl
  refine ⟨?_, ?_, ?_, ?_⟩
  · intro p hp
    exact removeOldLoop_ge hs p (by rw [← hru]; exact hp)
  · intro p hp hge
    rw [hru]
    exact removeOldLoop_mem hs hp hge
  · intro s hget
    rw [hru] at hget ⊢
    exact usageGet_head (removeOldLoop_sorted hs) (removeOldLoop_ge hs) hget
  · rw [Quota.does_metric_fit]
    cases hget : usageGet (now - (q.remove_old_keys now).window) (q.remove_old_keys now).usage with
    | none =>
      have hget2 : usageGet (now - q.window) (q.remove_old_keys now).usage = none := hget
      simp [hget2]
    | some s =>
      have hget2 : usageGet (now - q.window) (q.remove_old_keys now).usage = some s := hget
      simp only [hget2]
      constructor
      · intro hb
        refine Or.inr ⟨s, rfl, ?_⟩
        rcases Bool.or_eq_true_iff.mp hb with h1 | h2
        · exact Or.inl (by exact_mod_cast of_decide_eq_true h1)
        · exact Or.inr (of_decide_eq_true h2)
      · rintro (h1 | ⟨s2, hs2, hcase⟩)
        · simp at h1
        · injection hs2 with h3
          subst h3
          rcases hcase with h4 | h5
          · exact Bool.or_eq_true_iff.mpr (Or.inl (decide_eq_true h4))
          · exact Bool.or_eq_true_iff.mpr (Or.inr (decide_eq_true h5))

/-- C1 amended witness: a sorted two-granule quota at `now = 1001`. -/
theorem cardinality_does_fit_witness :
    UsageSorted (Quota.mk 600 2 60 [(460, [1]), (520, [2, 3])]).usage ∧
    cardFitSpec (Quota.mk 600 2 60 [(460, [1]), (520, [2, 3])]) 1001 2 :=
  ⟨by unfold UsageSorted; decide,
   cardinality_does_fit (Quota.mk 600 2 60 [(460, [1]), (520, [2, 3])]) 1001 2
     (by unfold UsageSorted; decide) (by decide)⟩

/-! ## Helper lemmas about CardinalityLimit submit -/

theorem remove_old_noNewHash (q : Quota) (now : Nat) :
    quotaNoNewHash q (q.remove_old_keys now) := by
  rintro x ⟨e, he, hx⟩
  exact ⟨e, removeOldLoop_sub he, hx⟩

theorem quotaNoNewHash_refl (q : Quota) : quotaNoNewHash q q :=
  fun _ hx => hx

theorem clCheck_forall2 (now hash : Nat) : ∀ qs : List Quota,
    List.Forall₂ (fun q q2 => q2 = q.remove_old_keys now ∨ q2 = q) qs (clCheck now hash qs).1 := by
  intro qs
  induction qs with
  | nil => exact List.Forall₂.nil
  | cons q rest ih =>
    simp only [clCheck]
    by_cases hfit : (q.remove_old_keys now).does_metric_fit now hash = true
    · rw [if_pos hfit]
      exact List.Forall₂.cons (Or.inl rfl) ih
    · rw [if_neg hfit]
      refine List.Forall₂.cons (Or.inl rfl) ?_
      exact List.forall₂_same.mpr (fun a _ => Or.inr rfl)

theorem clCheck_true_forall2 (now hash : Nat) : ∀ qs : List Quota,
    (clCheck now hash qs).2 = true →
    List.Forall₂ (fun q q2 => q2 = q.remove_old_keys now) qs (clCheck now hash qs).1 := by
  intro qs
  induction qs with
  | nil => intro _; exact List.Forall₂.nil
  | cons q rest ih =>
    intro htrue
    simp only [clCheck] at htrue ⊢
    by_cases hfit : (q.remove_old_keys now).does_metric_fit now hash = true
    · rw [if_pos hfit] at htrue ⊢
      exact List.Forall₂.cons rfl (ih htrue)
    · rw [if_neg hfit] at htrue
      simp at htrue

theorem usageInsert_mem_hash (t hash : Nat) : ∀ u : List (Nat × List Nat),
    ∃ e, e ∈ usageInsert t hash u ∧ hash ∈ e.2 := by
  intro u
  induction u with
  | nil => exact ⟨(t, [hash]), by simp [usageInsert]⟩
  | cons e rest ih =>
    by_cases h1 : t < e.1
    · exact ⟨(t, [hash]), by rw [usageInsert, if_pos h1]; simp⟩
    · by_cases h2 : t = e.1
      · refine ⟨(e.1, e.2.insert hash), ?_, List.mem_insert_self hash e.2⟩
        rw [usageInsert, if_neg h1, if_pos h2]
        simp
      · obtain ⟨e2, he2, hx⟩ := ih
        refine ⟨e2, ?_, hx⟩
        rw [usageInsert, if_neg h1, if_neg h2]
        exact List.mem_cons_of_mem e he2

theorem insertLoop_keeps_hash (g now hash : Nat) : ∀ (fuel current : Nat)
    (u : List (Nat × List Nat)), (∃ e, e ∈ u ∧ hash ∈ e.2) →
    ∃ e, e ∈ insertLoop g now hash fuel current u ∧ hash ∈ e.2 := by
  intro fuel
  induction fuel with
  | zero => intro current u h; exact h
  | succ n ih =>
    intro current u h
    by_cases hc : current < now
    · rw [insertLoop, if_pos hc]
      exact ih (current + g) _ (usageInsert_mem_hash current hash u)
    · rw [insertLoop, if_neg hc]
      exact h

theorem insert_metric_hashMem (q : Quota) (now hash : Nat)
    (hwpos : 0 < q.window) (hwle : q.window ≤ now) :
    hashMem (q.insert_metric now hash) hash := by
  have hc : now - q.window < now := by omega
  show ∃ e, e ∈ insertLoop q.granularity now hash (q.window + 1) (now - q.window) q.usage ∧
      hash ∈ e.2
  rw [insertLoop, if_pos hc]
  exact insertLoop_keeps_hash q.granularity now hash q.window (now - q.window + q.granularity) _
    (usageInsert_mem_hash (now - q.window) hash q.usage)

/-! ## Claim C8 -/

/-- C8 counterexample: a quota holding an expired granule, with the
downstream overloaded.  The admission check evicts the granule before the
forward fails, so the quota state after submit differs from the state
before, contradicting the parenthetical `quota state is unchanged when
forwarding fails`. -/
theorem cardinality_submit_eviction_on_overload :
    clSubmit [Quota.mk 10 5 1 [(0, [5])]] 100 7 false =
      ([Quota.mk 10 5 1 []], true, false) ∧
    [Quota.mk 10 5 1 []] ≠ [Quota.mk 10 5 1 [(0, [5])]] := by
  decide

/-- C8 amended: if any quota's admission check fails the metric is dropped
(no downstream submit, `Ok` result) and no hash is inserted into any quota;
the hash is inserted into every quota only when the downstream submit did
not return `Overloaded` — on `Overloaded` no hash is inserted, though the
eviction of expired granules performed during the admission checks
persists, so the quota state is not necessarily unchanged. -/
theorem cardinality_submit_flow (quotas : List Quota) (now hash : Nat) (dok : Bool) :
    clSubmitSpec quotas now hash dok := by
  have hshrink : List.Forall₂ quotaNoNewHash quotas (clCheck now hash quotas).1 := by
    refine (clCheck_forall2 now hash quotas).imp ?_
    intro a b hab
    rcases hab with h1 | h2
    · rw [h1]
      exact remove_old_noNewHash a now
    · rw [h2]
      exact quotaNoNewHash_refl a
  refine ⟨?_, ?_, ?_⟩
  · intro hfit
    simp only [clSubmit, hfit, Bool.false_eq_true, if_false]
    exact ⟨trivial, trivial, hshrink⟩
  · intro hfit hdok
    subst hdok
    simp only [clSubmit, hfit, if_true, Bool.false_eq_true, if_false]
    exact ⟨trivial, trivial, hshrink⟩
  · intro hfit hdok
    subst hdok
    simp only [clSubmit, hfit, if_true]
    refine ⟨trivial, trivial, ?_⟩
    rw [List.forall₂_map_right_iff]
    refine (clCheck_true_forall2 now hash quotas hfit).imp ?_
    intro a b hab hwpos hwle
    rw [hab]
    exact insert_metric_hashMem (a.remove_old_keys now) now hash hwpos hwle

/-! ## Claim C2 -/

/-- C2: on a reachable `Upstream` state (buffer within `BUFSIZE`, clock not
behind the last send), submit flushes exactly when
`buf_used + 1 + len(raw) > BUFSIZE` (sending the old buffer when non-empty,
stamping `last_sent_at`), a metric longer than `BUFSIZE` is sent as its own
datagram and the buffer stays empty, poll flushes exactly when
`now - last_sent_at > 1`, and the destructor flushes any non-empty
buffer. -/
theorem upstream_ops (u : UpstreamState) (now : Nat) (raw : List Nat)
    (hbuf : u.buf.length ≤ BUFSIZE) (hnow : u.lastSentAt ≤ now) :
    upstreamOpsSpec u now raw := by
  have hnlt : ¬ now < u.lastSentAt := by omega
  refine ⟨?_, ?_, ?_, ?_, ?_, ?_⟩
  · by_cases hc : BUFSIZE < u.buf.length + 1 + raw.length
    · have hcc : BUFSIZE - u.buf.length < raw.length + 1 := by omega
      by_cases ho : BUFSIZE < raw.length
      · simp [upSubmit, upFlush, hcc, hc, ho]
      · simp [upSubmit, upFlush, hcc, hc, ho]
    · have hcc : ¬ BUFSIZE - u.buf.length < raw.length + 1 := by
        unfold BUFSIZE at hbuf hc ⊢
        omega
      have ho : ¬ BUFSIZE < raw.length := by
        unfold BUFSIZE at hbuf hc ⊢
        omega
      simp [upSubmit, upFlush, hcc, hc, ho]
  · by_cases hc : BUFSIZE < u.buf.length + 1 + raw.length
    · have hcc : BUFSIZE - u.buf.length < raw.length + 1 := by omega
      by_cases ho : BUFSIZE < raw.length
      · simp [upSubmit, upFlush, hcc, hc, ho]
      · simp [upSubmit, upFlush, hcc, hc, ho]
    · have hcc : ¬ BUFSIZE - u.buf.length < raw.length + 1 := by
        unfold BUFSIZE at hbuf hc ⊢
        omega
      have ho : ¬ BUFSIZE < raw.length := by
        unfold BUFSIZE at hbuf hc ⊢
        omega
      simp [upSubmit, upFlush, hcc, hc, ho]
  · by_cases hc : BUFSIZE < u.buf.length + 1 + raw.length
    · have hcc : BUFSIZE - u.buf.length < raw.length + 1 := by omega
      by_cases ho : BUFSIZE < raw.length
      · simp [upSubmit, upFlush, hcc, hc, ho]
      · simp [upSubmit, upFlush, hcc, hc, ho]
    · have hcc : ¬ BUFSIZE - u.buf.length < raw.length + 1 := by
        unfold BUFSIZE at hbuf hc ⊢
        omega
      have ho : ¬ BUFSIZE < raw.length := by
        unfold BUFSIZE at hbuf hc ⊢
        omega
      by_cases hbe : u.buf = []
      · have hcc2 : ¬ BUFSIZE < raw.length + 1 := by
          rw [hbe] at hcc
          simpa using hcc
        simp [upSubmit, upFlush, hc, ho, hbe, hcc2]
      · simp [upSubmit, upFlush, hcc, hc, ho, hbe,
          List.length_pos.mpr hbe]
  · by_cases ht : 1 < now - u.lastSentAt
    · by_cases hbe : u.buf = []
      · simp [upPoll, upFlush, ht, hbe, hnlt]
      · simp [upPoll, upFlush, ht, hbe, hnlt]
    · simp [upPoll, upFlush, ht, hnlt]
  · by_cases ht : 1 < now - u.lastSentAt
    · simp [upPoll, upFlush, ht, hnlt]
    · simp [upPoll, upFlush, ht, hnlt]
  · by_cases hbe : u.buf = []
    · simp [upDrop, upFlush, hbe]
    · simp [upDrop, upFlush, hbe]

/-- C2 witness: a state with three buffered bytes at time 5 submitting a
one-byte metric. -/
theorem upstream_ops_witness :
    upstreamOpsSpec (UpstreamState.mk [1, 2, 3] 0) 5 [9] :=
  upstream_ops (UpstreamState.mk [1, 2, 3] 0) 5 [9] (by decide) (by decide)

/-! ## Claim C10 -/

/-- C10 support: every single operation preserves `buf_used ≤ BUFSIZE`. -/
theorem upStep_buf_le (u : UpstreamState) (op : UpOp)
    (hbuf : u.buf.length ≤ BUFSIZE) : ((upStep u op).1).buf.length ≤ BUFSIZE := by
  cases op with
  | poll now =>
    show ((upPoll u now).1).buf.length ≤ BUFSIZE
    unfold upPoll upFlush
    by_cases hcond : now < u.lastSentAt ∨ 1 < now - u.lastSentAt
    · rw [if_pos hcond]
      simp [BUFSIZE]
    · rw [if_neg hcond]
      exact hbuf
  | flush now =>
    show ((upFlush u now).1).buf.length ≤ BUFSIZE
    unfold upFlush
    simp [BUFSIZE]
  | submit now raw =>
    show ((upSubmit u now raw).1).buf.length ≤ BUFSIZE
    unfold upSubmit upFlush
    by_cases ho : raw.length > BUFSIZE
    · rw [if_pos ho]
      by_cases hcc : raw.length + 1 > BUFSIZE - u.buf.length
      · rw [if_pos hcc]
        simp [BUFSIZE]
      · rw [if_neg hcc]
        exact hbuf
    · rw [if_neg ho]
      by_cases hcc : raw.length + 1 > BUFSIZE - u.buf.length
      · rw [if_pos hcc]
        simp only []
        have : (([] : List Nat)).length = 0 := rfl
        simp only [List.length_append]
        simp
        omega
      · rw [if_neg hcc]
        simp only [List.length_append]
        by_cases hbe : u.buf.length > 0
        · rw [if_pos hbe]
          simp only [List.length_append]
          unfold BUFSIZE at hcc ho ⊢
          simp only [List.length_cons, List.length_nil]
          omega
        · rw [if_neg hbe]
          unfold BUFSIZE at hcc ho ⊢
          omega

/-- C10: starting from a fresh `Upstream`, after any sequence of submit,
poll and flush operations the used buffer length stays within `BUFSIZE`
(so the unsigned subtraction `BUFSIZE - buf_used` in submit never
underflows, and every buffered append stays inside the fixed buffer). -/
theorem upstream_buffer_invariant (ops : List UpOp) :
    (upRun ops).buf.length ≤ BUFSIZE := by
  have hgen : ∀ (l : List UpOp) (u : UpstreamState), u.buf.length ≤ BUFSIZE →
      (l.foldl (fun u2 op => (upStep u2 op).1) u).buf.length ≤ BUFSIZE := by
    intro l
    induction l with
    | nil => intro u h; exact h
    | cons op rest ih =>
      intro u h
      exact ih ((upStep u op).1) (upStep_buf_le u op h)
  exact hgen ops upFresh (by decide)

/-! ## Helper lemmas about aggregate parsing -/

theorem parseNum_nil : parseNum [] = none := by decide

theorem parseNum_c : parseNum [99] = none := by decide

theorem parseNum_g : parseNum [103] = none := by decide

theorem parseNum_ne_nil {V : List Nat} {v : ℚ} (h : parseNum V = some v) : V ≠ [] := by
  intro hV
  subst hV
  rw [parseNum_nil] at h
  exact absurd h (by simp)

theorem valueParts_decomp {raw A V B : List Nat}
    (h : valueParts raw = some (A, V, B)) :
    raw = A ++ V ++ B ∧ 124 ∉ V ∧ (B = [] ∨ ∃ B2, B = 124 :: B2) := by
  unfold valueParts at h
  cases h58 : splitAtFirst 58 raw with
  | none =>
    rw [h58] at h
    exact absurd h (by simp)
  | some pr =>
    rw [h58] at h
    dsimp only at h
    obtain ⟨hdec, _⟩ := splitAtFirst_decomp h58
    cases h124 : splitAtFirst 124 pr.2 with
    | some vq =>
      rw [h124] at h
      dsimp only at h
      simp only [Option.some_inj] at h
      injection h with hA h2
      injection h2 with hV hB
      subst hA
      subst hV
      subst hB
      obtain ⟨hdec2, hnot⟩ := splitAtFirst_decomp h124
      refine ⟨?_, hnot, Or.inr ⟨vq.2, rfl⟩⟩
      rw [hdec, hdec2]
      simp
    | none =>
      rw [h124] at h
      dsimp only at h
      simp only [Option.some_inj] at h
      injection h with hA h2
      injection h2 with hV hB
      subst hA
      subst hV
      subst hB
      have hnot : 124 ∉ pr.2 := splitAtFirst_eq_none.mp h124
      refine ⟨?_, hnot, Or.inl rfl⟩
      rw [hdec]
      simp

theorem insertParse_ok_elim {cfg : AggConfig} {raw : List Nat} {k : BucketKey}
    {v : BucketValue} (h : insertParse cfg raw = InsertResult.ok k v) :
    ∃ A V B t val, valueParts raw = some (A, V, B) ∧ tyBytes raw = some t ∧
      k = BucketKey.mk (A ++ B) A.length ∧ parseNum V = some val ∧
      ((t = [99] ∧ cfg.aggregate_counters = true ∧ v = BucketValue.Counter val) ∨
       (t = [103] ∧ cfg.aggregate_gauges = true ∧ v = BucketValue.Gauge val)) := by
  unfold insertParse at h
  cases hvp : valueParts raw with
  | none =>
    rw [hvp] at h
    exact absurd h (by simp)
  | some trip =>
    obtain ⟨A, V, B⟩ := trip
    rw [hvp] at h
    dsimp only at h
    cases hty : tyBytes raw with
    | none =>
      rw [hty] at h
      exact absurd h (by simp)
    | some t =>
      rw [hty] at h
      dsimp only at h
      by_cases h1 : t = [99] ∧ cfg.aggregate_counters = true
      · rw [if_pos (by exact h1)] at h
        cases hpn : parseNum V with
        | none =>
          rw [hpn] at h
          exact absurd h (by simp)
        | some val =>
          rw [hpn] at h
          injection h with hk hv
          exact ⟨A, V, B, t, val, rfl, rfl, hk.symm, hpn,
            Or.inl ⟨h1.1, h1.2, hv.symm⟩⟩
      · rw [if_neg (by exact h1)] at h
        by_cases h2 : t = [103] ∧ cfg.aggregate_gauges = true
        · rw [if_pos (by exact h2)] at h
          cases hpn : parseNum V with
          | none =>
            rw [hpn] at h
            exact absurd h (by simp)
          | some val =>
            rw [hpn] at h
            injection h with hk hv
            exact ⟨A, V, B, t, val, rfl, rfl, hk.symm, hpn,
              Or.inr ⟨h2.1, h2.2, hv.symm⟩⟩
        · rw [if_neg (by exact h2)] at h
          exact absurd h (by simp)

/-- For a metric the aggregator admitted, the type segment is a function of
the bucket-key parts `A` and `B` alone: the parsed value `V` cannot
contribute to a type segment that equals `"c"` or `"g"`. -/
theorem tyBytes_eq_tyKey {A V B t : List Nat} {val : ℚ}
    (hV : 124 ∉ V) (hB : B = [] ∨ ∃ B2, B = 124 :: B2)
    (hpn : parseNum V = some val)
    (hty : tyBytes (A ++ V ++ B) = some t)
    (htcg : t = [99] ∨ t = [103]) :
    tyKey A B = some t := by
  have hVne : V ≠ [] := parseNum_ne_nil hpn
  have hassoc : A ++ V ++ B = A ++ (V ++ B) := List.append_assoc A V B
  have hVB : splitAtFirst 124 (V ++ B) =
      (splitAtFirst 124 B).map (fun pr => (V ++ pr.1, pr.2)) :=
    splitAtFirst_append_none B (splitAtFirst_eq_none.mpr hV)
  cases hA : splitAtFirst 124 A with
  | some pr =>
    have hbig : splitAtFirst 124 (A ++ V ++ B) = some (pr.1, pr.2 ++ (V ++ B)) := by
      rw [hassoc]
      exact splitAtFirst_append_some (V ++ B) hA
    rw [tyBytes, hbig] at hty
    dsimp only [Option.map_some'] at hty
    cases hA2 : splitAtFirst 124 pr.2 with
    | some tq =>
      have hbig2 : splitAtFirst 124 (pr.2 ++ (V ++ B)) = some (tq.1, tq.2 ++ (V ++ B)) :=
        splitAtFirst_append_some (V ++ B) hA2
      rw [hbig2] at hty
      dsimp only at hty
      unfold tyKey
      rw [hA]
      dsimp only
      rw [hA2]
      dsimp only
      exact hty
    | none =>
      have hbig2 : splitAtFirst 124 (pr.2 ++ (V ++ B)) =
          (splitAtFirst 124 (V ++ B)).map (fun vq => (pr.2 ++ vq.1, vq.2)) :=
        splitAtFirst_append_none (V ++ B) hA2
      have ht : t = pr.2 ++ V := by
        rcases hB with hB1 | ⟨B2, hB2⟩
        · subst hB1
          rw [hbig2, hVB] at hty
          simp only [splitAtFirst, Option.map_none'] at hty
          injection hty with h2
          rw [← h2]
          simp
        · subst hB2
          have hsplitB : splitAtFirst 124 (124 :: B2) = some ([], B2) := by
            simp [splitAtFirst]
          rw [hbig2, hVB, hsplitB] at hty
          dsimp only [Option.map_some'] at hty
          injection hty with h2
          rw [← h2]
          simp
      exfalso
      rcases htcg with h99 | h103
      · rw [h99] at ht
        cases hp2 : pr.2 with
        | nil =>
          rw [hp2] at ht
          simp only [List.nil_append] at ht
          rw [← ht, parseNum_c] at hpn
          exact absurd hpn (by simp)
        | cons p ps =>
          rw [hp2] at ht
          have hlen := congrArg List.length ht
          simp only [List.length_append, List.length_cons, List.length_nil] at hlen
          have hvlen : 0 < V.length := List.length_pos.mpr hVne
          omega
      · rw [h103] at ht
        cases hp2 : pr.2 with
        | nil =>
          rw [hp2] at ht
          simp only [List.nil_append] at ht
          rw [← ht, parseNum_g] at hpn
          exact absurd hpn (by simp)
        | cons p ps =>
          rw [hp2] at ht
          have hlen := congrArg List.length ht
          simp only [List.length_append, List.length_cons, List.length_nil] at hlen
          have hvlen : 0 < V.length := List.length_pos.mpr hVne
          omega
  | none =>
    have hbig : splitAtFirst 124 (A ++ V ++ B) =
        (splitAtFirst 124 (V ++ B)).map (fun vq => (A ++ vq.1, vq.2)) := by
      rw [hassoc]
      exact splitAtFirst_append_none (V ++ B) hA
    rcases hB with hB1 | ⟨B2, hB2⟩
    · subst hB1
      rw [tyBytes, hbig, hVB] at hty
      simp [splitAtFirst] at hty
    · subst hB2
      have hsplitB : splitAtFirst 124 (124 :: B2) = some ([], B2) := by
        simp [splitAtFirst]
      rw [tyBytes, hbig, hVB, hsplitB] at hty
      dsimp only [Option.map_some'] at hty
      unfold tyKey
      rw [hA]
      dsimp only
      cases hsp : splitAtFirst 124 B2 with
      | some tq =>
        rw [hsp] at hty
        dsimp only at hty ⊢
        exact hty
      | none =>
        rw [hsp] at hty
        dsimp only at hty ⊢
        exact hty

theorem same_key_same_kind {cfg : AggConfig} {raw1 raw2 : List Nat} {k : BucketKey}
    {v1 v2 : BucketValue}
    (h1 : insertParse cfg raw1 = InsertResult.ok k v1)
    (h2 : insertParse cfg raw2 = InsertResult.ok k v2) :
    bvIsCounter v1 = bvIsCounter v2 := by
  obtain ⟨A1, V1, B1, t1, val1, hvp1, hty1, hk1, hpn1, hcase1⟩ := insertParse_ok_elim h1
  obtain ⟨A2, V2, B2, t2, val2, hvp2, hty2, hk2, hpn2, hcase2⟩ := insertParse_ok_elim h2
  obtain ⟨hraw1, hV1, hB1⟩ := valueParts_decomp hvp1
  obtain ⟨hraw2, hV2, hB2⟩ := valueParts_decomp hvp2
  have hkeq : BucketKey.mk (A1 ++ B1) A1.length = BucketKey.mk (A2 ++ B2) A2.length := by
    rw [← hk1, ← hk2]
  injection hkeq with hmb hiva
  obtain ⟨hAeq, hBeq⟩ := List.append_inj hmb hiva
  have htcg1 : t1 = [99] ∨ t1 = [103] := by
    rcases hcase1 with ⟨ha, _, _⟩ | ⟨ha, _, _⟩
    · exact Or.inl ha
    · exact Or.inr ha
  have htcg2 : t2 = [99] ∨ t2 = [103] := by
    rcases hcase2 with ⟨ha, _, _⟩ | ⟨ha, _, _⟩
    · exact Or.inl ha
    · exact Or.inr ha
  rw [hraw1] at hty1
  rw [hraw2] at hty2
  have hkey1 : tyKey A1 B1 = some t1 := tyBytes_eq_tyKey hV1 hB1 hpn1 hty1 htcg1
  have hkey2 : tyKey A2 B2 = some t2 := tyBytes_eq_tyKey hV2 hB2 hpn2 hty2 htcg2
  rw [← hAeq, ← hBeq, hkey1] at hkey2
  have hteq : t1 = t2 := by
    injection hkey2
  rcases hcase1 with ⟨ha1, _, hv1⟩ | ⟨ha1, _, hv1⟩ <;>
    rcases hcase2 with ⟨ha2, _, hv2⟩ | ⟨ha2, _, hv2⟩
  · simp [hv1, hv2, bvIsCounter]
  · rw [ha1, ha2] at hteq
    exact absurd hteq (by decide)
  · rw [ha1, ha2] at hteq
    exact absurd hteq (by decide)
  · simp [hv1, hv2, bvIsCounter]

theorem bvMerge_isSome : ∀ {a b : BucketValue}, bvIsCounter a = bvIsCounter b →
    (bvMerge a b).isSome = true
  | BucketValue.Counter _, BucketValue.Counter _, _ => rfl
  | BucketValue.Gauge _, BucketValue.Gauge _, _ => rfl
  | BucketValue.Counter _, BucketValue.Gauge _, h => by
    exact absurd h (by simp [bvIsCounter])
  | BucketValue.Gauge _, BucketValue.Counter _, h => by
    exact absurd h (by simp [bvIsCounter])

theorem bvMerge_kind : ∀ {a b c : BucketValue}, bvMerge a b = some c →
    bvIsCounter c = bvIsCounter a
  | BucketValue.Counter x, BucketValue.Counter y, c, h => by
    injection h with h2
    rw [← h2]
    rfl
  | BucketValue.Gauge x, BucketValue.Gauge y, c, h => by
    injection h with h2
    rw [← h2]
    rfl
  | BucketValue.Counter x, BucketValue.Gauge y, c, h => by
    exact absurd h (by simp [bvMerge])
  | BucketValue.Gauge x, BucketValue.Counter y, c, h => by
    exact absurd h (by simp [bvMerge])

/-! ## Helper lemmas about the bucket map -/

theorem mapLookup_mem : ∀ {map : AggMap} {k : BucketKey} {v : BucketValue},
    mapLookup k map = some v → (k, v) ∈ map := by
  intro map
  induction map with
  | nil => intro k v h; exact absurd h (by simp [mapLookup])
  | cons e rest ih =>
    intro k v h
    by_cases he : e.1 = k
    · rw [mapLookup, if_pos he] at h
      injection h with h2
      have he2 : e = (k, v) := by
        obtain ⟨e1, e2⟩ := e
        simp only at he h2
        rw [he, h2]
      rw [he2]
      exact List.mem_cons_self (k, v) rest
    · rw [mapLookup, if_neg he] at h
      exact List.mem_cons_of_mem e (ih h)

theorem mapReplace_mem : ∀ {map : AggMap} {k : BucketKey} {v2 : BucketValue}
    {e : BucketKey × BucketValue},
    e ∈ mapReplace k v2 map → e ∈ map ∨ e = (k, v2) := by
  intro map
  induction map with
  | nil => intro k v2 e h; exact absurd h (by simp [mapReplace])
  | cons e0 rest ih =>
    intro k v2 e h
    by_cases he : e0.1 = k
    · rw [mapReplace, if_pos he] at h
      rcases List.mem_cons.mp h with h1 | h2
      · exact Or.inr h1
      · exact Or.inl (List.mem_cons_of_mem e0 h2)
    · rw [mapReplace, if_neg he] at h
      rcases List.mem_cons.mp h with h1 | h2
      · rw [h1]
        exact Or.inl (List.mem_cons_self e0 rest)
      · rcases ih h2 with h3 | h4
        · exact Or.inl (List.mem_cons_of_mem e0 h3)
        · exact Or.inr h4

theorem mapLookup_replace : ∀ {map : AggMap} {k : BucketKey} {old v2 : BucketValue},
    mapLookup k map = some old → mapLookup k (mapReplace k v2 map) = some v2 := by
  intro map
  induction map with
  | nil => intro k old v2 h; exact absurd h (by simp [mapLookup])
  | cons e0 rest ih =>
    intro k old v2 h
    by_cases he : e0.1 = k
    · rw [mapReplace, if_pos he, mapLookup, if_pos rfl]
    · rw [mapReplace, if_neg he, mapLookup, if_neg he]
      rw [mapLookup, if_neg he] at h
      exact ih h

theorem aggSubmit_err {cfg : AggConfig} {map : AggMap} {raw : List Nat} {msg : String}
    (hip : insertParse cfg raw = InsertResult.err msg) :
    aggSubmit cfg map raw = some (map, [raw]) := by
  unfold aggSubmit
  rw [hip]

theorem aggSubmit_ok_none {cfg : AggConfig} {map : AggMap} {raw : List Nat}
    {k : BucketKey} {v : BucketValue}
    (hip : insertParse cfg raw = InsertResult.ok k v) (hlk : mapLookup k map = none) :
    aggSubmit cfg map raw = some ((k, v) :: map, []) := by
  unfold aggSubmit
  rw [hip]
  dsimp only
  rw [hlk]

theorem aggSubmit_ok_some {cfg : AggConfig} {map : AggMap} {raw : List Nat}
    {k : BucketKey} {v old merged : BucketValue}
    (hip : insertParse cfg raw = InsertResult.ok k v) (hlk : mapLookup k map = some old)
    (hmg : bvMerge old v = some merged) :
    aggSubmit cfg map raw = some (mapReplace k merged map, []) := by
  unfold aggSubmit
  rw [hip]
  dsimp only
  rw [hlk]
  dsimp only
  rw [hmg]
  rfl

/-- One aggregate submit step from a map in which every stored entry came
from some admitted metric of matching kind: the step cannot panic, and the
resulting map satisfies the same invariant. -/
theorem aggSubmit_step {cfg : AggConfig} {map : AggMap} {raw : List Nat}
    (hinv : ∀ e ∈ map, ∃ raw0 v0, insertParse cfg raw0 = InsertResult.ok e.1 v0 ∧
      bvIsCounter v0 = bvIsCounter e.2) :
    ∃ map2 outs, aggSubmit cfg map raw = some (map2, outs) ∧
      ∀ e ∈ map2, ∃ raw0 v0, insertParse cfg raw0 = InsertResult.ok e.1 v0 ∧
        bvIsCounter v0 = bvIsCounter e.2 := by
  cases hip : insertParse cfg raw with
  | err msg => exact ⟨map, [raw], aggSubmit_err hip, hinv⟩
  | ok k v =>
    cases hlk : mapLookup k map with
    | none =>
      refine ⟨(k, v) :: map, [], aggSubmit_ok_none hip hlk, ?_⟩
      intro e he
      rcases List.mem_cons.mp he with h1 | h2
      · rw [h1]
        exact ⟨raw, v, hip, rfl⟩
      · exact hinv e h2
    | some old =>
      have hmem := mapLookup_mem hlk
      obtain ⟨raw0, v0, hok0, hkind0⟩ := hinv (k, old) hmem
      have hkind : bvIsCounter old = bvIsCounter v := by
        have hsame := same_key_same_kind hok0 hip
        simp only at hkind0
        rw [← hkind0, hsame]
      have hms : (bvMerge old v).isSome = true := bvMerge_isSome hkind
      obtain ⟨merged, hmg⟩ := Option.isSome_iff_exists.mp hms
      refine ⟨mapReplace k merged map, [], aggSubmit_ok_some hip hlk hmg, ?_⟩
      intro e he
      rcases mapReplace_mem he with h1 | h2
      · exact hinv e h1
      · rw [h2]
        refine ⟨raw0, v0, hok0, ?_⟩
        simp only at hkind0 ⊢
        rw [bvMerge_kind hmg, ← hkind0]

/-- Running submits preserves the invariant and never reaches the panic. -/
theorem aggRun_inv {cfg : AggConfig} : ∀ (ms : List (List Nat)) (map : AggMap),
    (∀ e ∈ map, ∃ raw0 v0, insertParse cfg raw0 = InsertResult.ok e.1 v0 ∧
      bvIsCounter v0 = bvIsCounter e.2) →
    ∃ mf, aggRun cfg map ms = some mf ∧
      ∀ e ∈ mf, ∃ raw0 v0, insertParse cfg raw0 = InsertResult.ok e.1 v0 ∧
        bvIsCounter v0 = bvIsCounter e.2 := by
  intro ms
  induction ms with
  | nil => intro map hinv; exact ⟨map, rfl, hinv⟩
  | cons raw rest ih =>
    intro map hinv
    obtain ⟨map2, outs, hsub, hinv2⟩ := aggSubmit_step hinv
    obtain ⟨mf, hrun, hfin⟩ := ih map2 hinv2
    refine ⟨mf, ?_, hfin⟩
    have hstep : aggStep cfg (some map) raw = some map2 := by
      unfold aggStep
      rw [Option.some_bind, hsub]
      rfl
    show (raw :: rest).foldl (aggStep cfg) (some map) = some mf
    rw [List.foldl_cons, hstep]
    exact hrun

/-! ## Claim C9 -/

/-- C9: for every sequence of submits starting from a fresh (empty) bucket
map, `BucketValue::merge` is never invoked on a Counter/Gauge pair — two
admitted metrics with the same bucket key have the same type segment and
hence the same value kind — so the panic branch is unreachable and the run
always produces a map. -/
theorem aggregate_merge_no_panic (cfg : AggConfig) (ms : List (List Nat)) :
    (aggRun cfg [] ms).isSome = true := by
  obtain ⟨mf, hrun, _⟩ := aggRun_inv ms []
    (by intro e he; exact absurd he (by simp))
  rw [hrun]
  rfl

/-! ## Helper lemmas for counter and gauge folds -/

theorem aggRun_cons {cfg : AggConfig} {map map2 : AggMap} {raw : List Nat}
    {outs : List (List Nat)} (rest : List (List Nat))
    (hsub : aggSubmit cfg map raw = some (map2, outs)) :
    aggRun cfg map (raw :: rest) = aggRun cfg map2 rest := by
  have hstep : aggStep cfg (some map) raw = some map2 := by
    unfold aggStep
    rw [Option.some_bind, hsub]
    rfl
  show (raw :: rest).foldl (aggStep cfg) (some map) = aggRun cfg map2 rest
  rw [List.foldl_cons, hstep]
  rfl

theorem agg_counter_run {cfg : AggConfig} {k : BucketKey} :
    ∀ (ms : List (List Nat)) (vs : List ℚ) (map : AggMap) (c : ℚ),
    mapLookup k map = some (BucketValue.Counter c) →
    ms.map (insertParse cfg) = vs.map (fun v => InsertResult.ok k (BucketValue.Counter v)) →
    ∃ mf, aggRun cfg map ms = some mf ∧
      mapLookup k mf = some (BucketValue.Counter (c + vs.sum)) := by
  intro ms
  induction ms with
  | nil =>
    intro vs map c hlk hmap
    cases vs with
    | nil =>
      refine ⟨map, rfl, ?_⟩
      rw [hlk]
      norm_num
    | cons v vtail => simp at hmap
  | cons raw rest ih =>
    intro vs map c hlk hmap
    cases vs with
    | nil => simp at hmap
    | cons v vtail =>
      simp only [List.map_cons] at hmap
      injection hmap with h1 h2
      have hmg : bvMerge (BucketValue.Counter c) (BucketValue.Counter v) =
          some (BucketValue.Counter (c + v)) := rfl
      have hsub := aggSubmit_ok_some h1 hlk hmg
      have hlk2 : mapLookup k (mapReplace k (BucketValue.Counter (c + v)) map) =
          some (BucketValue.Counter (c + v)) := mapLookup_replace hlk
      obtain ⟨mf, hrun, hfin⟩ := ih vtail _ (c + v) hlk2 h2
      refine ⟨mf, ?_, ?_⟩
      · rw [aggRun_cons rest hsub]
        exact hrun
      · rw [hfin, List.sum_cons, add_assoc]

theorem agg_gauge_run {cfg : AggConfig} {k : BucketKey} :
    ∀ (ms : List (List Nat)) (vs : List ℚ) (map : AggMap) (g : ℚ),
    mapLookup k map = some (BucketValue.Gauge g) →
    ms.map (insertParse cfg) = vs.map (fun v => InsertResult.ok k (BucketValue.Gauge v)) →
    ∃ mf, aggRun cfg map ms = some mf ∧
      mapLookup k mf = some (BucketValue.Gauge (vs.getLastD g)) := by
  intro ms
  induction ms with
  | nil =>
    intro vs map g hlk hmap
    cases vs with
    | nil => exact ⟨map, rfl, hlk⟩
    | cons v vtail => simp at hmap
  | cons raw rest ih =>
    intro vs map g hlk hmap
    cases vs with
    | nil => simp at hmap
    | cons v vtail =>
      simp only [List.map_cons] at hmap
      injection hmap with h1 h2
      have hmg : bvMerge (BucketValue.Gauge g) (BucketValue.Gauge v) =
          some (BucketValue.Gauge v) := rfl
      have hsub := aggSubmit_ok_some h1 hlk hmg
      have hlk2 : mapLookup k (mapReplace k (BucketValue.Gauge v) map) =
          some (BucketValue.Gauge v) := mapLookup_replace hlk
      obtain ⟨mf, hrun, hfin⟩ := ih vtail _ v hlk2 h2
      refine ⟨mf, ?_, ?_⟩
      · rw [aggRun_cons rest hsub]
        exact hrun
      · rw [hfin, List.getLastD_cons]

theorem getLast?_cons_getLastD {v : ℚ} : ∀ {l : List ℚ},
    (v :: l).getLast? = some (l.getLastD v) := by
  intro l
  induction l generalizing v with
  | nil => rfl
  | cons b bs ih =>
    rw [List.getLast?_cons_cons, ih, List.getLastD_cons]

theorem mapLookup_cons_self {k : BucketKey} {v : BucketValue} {map : AggMap} :
    mapLookup k ((k, v) :: map) = some v := by
  rw [mapLookup, if_pos rfl]

/-! ## Claim C3 -/

/-- C3: starting from a bucket map that does not hold the key `k` (for
example right after a flush), a sequence of submits that all parse to key
`k` stores the sum of all the parsed values for counters, and the value of
the last submit for gauges (last-write-wins). -/
theorem aggregate_same_key (cfg : AggConfig) (k : BucketKey) (m0 : AggMap)
    (h0 : mapLookup k m0 = none) : aggSameKeySpec cfg k m0 := by
  constructor
  · intro ms vs hmap
    cases ms with
    | nil =>
      cases vs with
      | nil =>
        refine ⟨m0, rfl, ?_⟩
        rw [h0, if_pos rfl]
      | cons v vtail => simp at hmap
    | cons raw rest =>
      cases vs with
      | nil => simp at hmap
      | cons v vtail =>
        simp only [List.map_cons] at hmap
        injection hmap with h1 h2
        have hsub := aggSubmit_ok_none h1 h0
        obtain ⟨mf, hrun, hfin⟩ := agg_counter_run rest vtail ((k, BucketValue.Counter v) :: m0)
          v mapLookup_cons_self h2
        refine ⟨mf, ?_, ?_⟩
        · rw [aggRun_cons rest hsub]
          exact hrun
        · rw [hfin, if_neg (by simp), List.sum_cons]
  · intro ms vs hmap
    cases ms with
    | nil =>
      cases vs with
      | nil => exact ⟨m0, rfl, by rw [h0]; rfl⟩
      | cons v vtail => simp at hmap
    | cons raw rest =>
      cases vs with
      | nil => simp at hmap
      | cons v vtail =>
        simp only [List.map_cons] at hmap
        injection hmap with h1 h2
        have hsub := aggSubmit_ok_none h1 h0
        obtain ⟨mf, hrun, hfin⟩ := agg_gauge_run rest vtail ((k, BucketValue.Gauge v) :: m0)
          v mapLookup_cons_self h2
        refine ⟨mf, ?_, ?_⟩
        · rw [aggRun_cons rest hsub]
          exact hrun
        · rw [hfin, getLast?_cons_getLastD]
          rfl

/-- C3 witness: the bucket key of `"a:1|c"` over the empty map. -/
theorem aggregate_same_key_witness :
    mapLookup (BucketKey.mk [97, 58, 124, 99] 2) [] = none ∧
    aggSameKeySpec (AggConfig.mk true true) (BucketKey.mk [97, 58, 124, 99] 2) [] :=
  ⟨rfl, aggregate_same_key (AggConfig.mk true true) (BucketKey.mk [97, 58, 124, 99] 2) [] rfl⟩

/-! ## Claim C7 -/

/-- C7: a metric whose value bytes are missing or do not parse as a number
(which subsumes invalid UTF-8), or whose type segment is missing or is
neither `"c"` nor `"g"`, or whose type's aggregation is disabled in the
config, is forwarded unchanged by `AggregateMetrics::submit` and the bucket
map is left unchanged. -/
theorem aggregate_forwards_unparsable (cfg : AggConfig) (map : AggMap) (raw : List Nat)
    (h : valueParts raw = none ∨
      (∃ A V B, valueParts raw = some (A, V, B) ∧ parseNum V = none) ∨
      tyBytes raw = none ∨
      (∃ t, tyBytes raw = some t ∧ t ≠ [99] ∧ t ≠ [103]) ∨
      (tyBytes raw = some [99] ∧ cfg.aggregate_counters = false) ∨
      (tyBytes raw = some [103] ∧ cfg.aggregate_gauges = false)) :
    aggSubmit cfg map raw = some (map, [raw]) := by
  have herr : ∃ msg, insertParse cfg raw = InsertResult.err msg := by
    unfold insertParse
    cases hvp : valueParts raw with
    | none => exact ⟨_, rfl⟩
    | some trip =>
      obtain ⟨A, V, B⟩ := trip
      dsimp only
      cases hty : tyBytes raw with
      | none => exact ⟨_, rfl⟩
      | some t =>
        dsimp only
        rcases h with h1 | ⟨A2, V2, B2, hvp2, hpn2⟩ | h3 | ⟨t2, hty2, hne99, hne103⟩ |
          ⟨hty99, hcf⟩ | ⟨hty103, hcf⟩
        · rw [hvp] at h1
          exact absurd h1 (by simp)
        · rw [hvp] at hvp2
          simp only [Option.some_inj] at hvp2
          injection hvp2 with hA hrest
          injection hrest with hV hB
          subst hA
          subst hV
          subst hB
          by_cases hc1 : t = [99] ∧ cfg.aggregate_counters = true
          · rw [if_pos (by exact hc1), hpn2]
            exact ⟨_, rfl⟩
          · rw [if_neg (by exact hc1)]
            by_cases hc2 : t = [103] ∧ cfg.aggregate_gauges = true
            · rw [if_pos (by exact hc2), hpn2]
              exact ⟨_, rfl⟩
            · rw [if_neg (by exact hc2)]
              exact ⟨_, rfl⟩
        · rw [hty] at h3
          exact absurd h3 (by simp)
        · rw [hty] at hty2
          simp only [Option.some_inj] at hty2
          subst hty2
          rw [if_neg (by intro hc; exact hne99 hc.1), if_neg (by intro hc; exact hne103 hc.1)]
          exact ⟨_, rfl⟩
        · rw [hty] at hty99
          simp only [Option.some_inj] at hty99
          subst hty99
          rw [if_neg (by intro hc; rw [hcf] at hc; exact absurd hc.2 (by simp)),
            if_neg (by intro hc; exact absurd hc.1 (by decide))]
          exact ⟨_, rfl⟩
        · rw [hty] at hty103
          simp only [Option.some_inj] at hty103
          subst hty103
          rw [if_neg (by intro hc; exact absurd hc.1 (by decide)),
            if_neg (by intro hc; rw [hcf] at hc; exact absurd hc.2 (by simp))]
          exact ⟨_, rfl⟩
  obtain ⟨msg, hmsg⟩ := herr
  exact aggSubmit_err hmsg

/-- C7 witness: the metric `"a:x|c"` (non-numeric value) over the empty
map, with both aggregations enabled. -/
theorem aggregate_forwards_unparsable_witness :
    (∃ A V B, valueParts [97, 58, 120, 124, 99] = some (A, V, B) ∧ parseNum V = none) ∧
    aggSubmit (AggConfig.mk true true) [] [97, 58, 120, 124, 99] =
      some ([], [[97, 58, 120, 124, 99]]) :=
  ⟨⟨[97, 58], [120], [124, 99], by decide, by decide⟩,
   aggregate_forwards_unparsable (AggConfig.mk true true) [] [97, 58, 120, 124, 99]
     (Or.inr (Or.inl ⟨[97, 58], [120], [124, 99], by decide, by decide⟩))⟩

end Statsdproxy
